import Mathlib

/-!
Verification of the core rewriting engine of the `sclang_format` source
formatter (Rust).  Text buffers are modelled as their byte sequences
(`List Nat`, one entry per byte, each < 256 in practice); byte offsets into
the buffer are `Nat`.  Each Rust function used by a claim is translated
into an executable Lean definition with the same name where possible:

* `TextEdit`, `apply_edits`      — `src/engine.rs`, `Ctx::apply_edits`
* `mergeLoop`, `formatOnlyPipeArgsMerge`
                                 — `src/format.rs`, merge loop of
                                   `Rewriter::format_only_pipe_args`
* `CommentState`                 — `src/rules/compact_collections.rs`
                                   (the same struct is duplicated verbatim
                                   in `src/rules/expand_if_trailing.rs`)
* `collect_top_level_elements`   — `src/rules/compact_collections.rs`
* `lineTrimLoop`, `eofNewlineEdits`, `trailingWsRun`
                                 — `src/rules/trailing_ws.rs`

Rust `usize` arithmetic is modelled by `Nat` (truncating subtraction only
occurs where the source guarantees no underflow), Rust `i32` counters by
`Int`; `ropey` splicing at byte offsets is modelled by list
`take`/`drop`/append, which coincides with the rope operations whenever
the offsets fall on character boundaries.  Rust `while` loops become
structural recursions, using explicit fuel exactly where noted; each fuel
bound is chosen so that the recursion can never exhaust it before the
loop's own exit condition fires, so the definitions agree with the loops
on all inputs.

Byte constants used throughout: `\t` = 9, `\n` = 10, `\r` = 13,
space = 32, `"` = 34, `'` = 39, `(` = 40, `)` = 41, `*` = 42, `,` = 44,
`/` = 47, `[` = 91, `\` = 92, `]` = 93, `{` = 123, `}` = 125.
-/

namespace SclangFormat

/-- Byte classifier `is_space` from the rule files: ASCII space or tab. -/
def is_space (b : Nat) : Bool := b == 32 || b == 9

/-- Byte classifier `is_newline` from the rule files: LF or CR. -/
def is_newline (b : Nat) : Bool := b == 10 || b == 13

/-- `TextEdit` from `src/engine.rs`: a half-open byte range of the pre-edit
text plus a replacement (modelled as its byte sequence). -/
structure TextEdit where
  start_byte : Nat
  end_byte : Nat
  replacement : List Nat
deriving DecidableEq

/-- One splice of the rope in `Ctx::apply_edits`: `rope.remove(start..end)`
followed by `rope.insert(start, replacement)`. -/
def applyOne (e : TextEdit) (t : List Nat) : List Nat :=
  t.take e.start_byte ++ e.replacement ++ t.drop e.end_byte

/-- Model of `edits.sort_by_key(|e| e.start_byte)` (a stable ascending
sort; insertion sort with a non-strict key comparison is stable). -/
def sortEdits (es : List TextEdit) : List TextEdit :=
  List.insertionSort (fun a b => a.start_byte ≤ b.start_byte) es

/-- Text component of `Ctx::apply_edits` (`src/engine.rs` lines 61-79):
sort ascending by start offset, then apply every edit from the highest
start offset down to the lowest.  No edit is dropped. -/
def apply_edits (t : List Nat) (es : List TextEdit) : List Nat :=
  (sortEdits es).foldr applyOne t

/-- Simultaneous splice of a start-ascending edit list into the pre-edit
text: keep `[cur, e.start)` verbatim, emit the replacement, continue after
`e.end`.  This is the specification-side meaning of "each edit's half-open
byte range of the pre-edit text is replaced by its replacement string". -/
def spliceAll (src : List Nat) : List TextEdit → Nat → List Nat
  | [], cur => src.drop cur
  | e :: rest, cur =>
      (src.drop cur).take (e.start_byte - cur) ++ e.replacement ++
        spliceAll src rest e.end_byte

/-- Full `Ctx::apply_edits` including its early return and the reparse of
the new text (`parser.parse` is an opaque parameter; `none` models a parse
failure, which the Rust code propagates as an error). -/
def applyEditsCtx {τ : Type} (parse : List Nat → Option τ)
    (st : List Nat × τ) (es : List TextEdit) : Option (List Nat × τ) :=
  if es.isEmpty then some st
  else
    match parse (apply_edits st.1 es) with
    | some tr => some (apply_edits st.1 es, tr)
    | none => none

/-- Merge loop of `Rewriter::format_only_pipe_args` (`src/format.rs` lines
44-53): walk the start-sorted replacement list keeping a cursor `cur`; a
replacement whose start lies before `cur` is skipped (`if start < cur {
continue }`, the "overlapping safeguard"), otherwise the gap
`src[cur..start]` and the replacement are emitted and `cur` advances to its
end; finally the tail `src[cur..]` is appended. -/
def mergeLoop (src : List Nat) : List TextEdit → Nat → List Nat
  | [], cur => src.drop cur
  | e :: rest, cur =>
      if e.start_byte < cur then mergeLoop src rest cur
      else
        (src.drop cur).take (e.start_byte - cur) ++ e.replacement ++
          mergeLoop src rest e.end_byte

/-- The replacements that survive the overlapping safeguard of
`Rewriter::format_only_pipe_args`: a replacement is kept exactly when its
start is not below the end offset consumed by the previously kept
(earlier-starting) replacement. -/
def survivors : List TextEdit → Nat → List TextEdit
  | [], _ => []
  | e :: rest, cur =>
      if e.start_byte < cur then survivors rest cur
      else e :: survivors rest e.end_byte

/-- `Rewriter::format_only_pipe_args` merge phase (`src/format.rs` lines
36-55): sort the collected replacements ascending by start and run the
merge loop from cursor 0.  (The Rust early return for an empty list yields
the same value.) -/
def formatOnlyPipeArgsMerge (src : List Nat) (reps : List TextEdit) : List Nat :=
  mergeLoop src (sortEdits reps) 0

/-- `CommentState` from `src/rules/compact_collections.rs` lines 15-22 (an
identical copy lives in `src/rules/expand_if_trailing.rs`): four state
flags plus the previously seen byte. -/
structure CommentState where
  in_line : Bool
  in_block : Bool
  in_single : Bool
  in_double : Bool
  prev : Nat
deriving DecidableEq

/-- `CommentState::new`. -/
def CommentState.new : CommentState :=
  { in_line := false, in_block := false, in_single := false
    in_double := false, prev := 0 }

/-- `CommentState::in_comment_or_string`. -/
def CommentState.in_comment_or_string (s : CommentState) : Bool :=
  s.in_line || s.in_block || s.in_single || s.in_double

/-- `CommentState::step` (`src/rules/compact_collections.rs` lines 39-88). -/
def CommentState.step (s : CommentState) (b : Nat) : CommentState :=
  if s.in_line then
    { s with in_line := !(is_newline b), prev := b }
  else if s.in_block then
    { s with in_block := !(s.prev == 42 && b == 47), prev := b }
  else if s.in_single then
    { s with in_single := !(b == 39 && !(s.prev == 92)), prev := b }
  else if s.in_double then
    { s with in_double := !(b == 34 && !(s.prev == 92)), prev := b }
  else if s.prev == 47 && b == 47 then
    { s with in_line := true, prev := b }
  else if s.prev == 47 && b == 42 then
    { s with in_block := true, prev := b }
  else if b == 39 then
    { s with in_single := true, prev := b }
  else if b == 34 then
    { s with in_double := true, prev := b }
  else
    { s with prev := b }

/-- Stepping the classifier state machine over a byte sequence. -/
def stepAll (s : CommentState) (bs : List Nat) : CommentState :=
  bs.foldl CommentState.step s

/-- Decidable statement that a start-sorted edit list has pairwise
non-overlapping ranges: each edit ends no later than the next one starts
(the spec's "once sorted by start offset, has no overlapping ranges"). -/
def chainOk : List TextEdit → Bool
  | [] => true
  | [_] => true
  | e1 :: e2 :: rest =>
      decide (e1.end_byte ≤ e2.start_byte) && chainOk (e2 :: rest)

/-- Scan loop `while j < b.len() && b[j] != b'\n' { j += 1 }` from
`TrimTrailingWhitespaceAndEofNewline::run`, written with explicit
remaining-length fuel; with fuel `b.length - j` it is exactly the loop. -/
def scanGo (b : List Nat) : Nat → Nat → Nat
  | 0, j => j
  | fuel + 1, j =>
      if j < b.length && !(b.getD j 0 == 10) then scanGo b fuel (j + 1)
      else j

/-- Offset of the next LF at or after `j` (or `b.length`). -/
def scanToNl (b : List Nat) (j : Nat) : Nat :=
  scanGo b (b.length - j) j

/-- Backward scan `while k > i && (b[k-1] == b' ' || b[k-1] == b'\t')
{ k -= 1 }` of the line-trim loop. -/
def trimBackTo (b : List Nat) (i : Nat) : Nat → Nat
  | 0 => 0
  | k + 1 =>
      if decide (i < k + 1) && is_space (b.getD k 0) then trimBackTo b i k
      else k + 1

/-- Line-trimming loop of `TrimTrailingWhitespaceAndEofNewline::run`
(`src/rules/trailing_ws.rs` lines 18-39): for each LF-terminated line
`[i, j)`, if a run of trailing spaces/tabs `[k, j)` is nonempty, emit a
deletion edit for it. -/
def lineTrimGo (b : List Nat) : Nat → Nat → List TextEdit
  | 0, _ => []
  | fuel + 1, i =>
      if i < b.length then
        let j := scanToNl b i
        let k := trimBackTo b i j
        (if k < j then [⟨k, j, []⟩] else []) ++
          (if j == b.length then [] else lineTrimGo b fuel (j + 1))
      else []

/-- The line-trim loop entered at offset `i`; the fuel `b.length + 1 - i`
never runs out before the loop's own exit conditions fire, because each
iteration advances `i` past the scanned line end (`scanToNl_ge`). -/
def lineTrimLoop (b : List Nat) (i : Nat) : List TextEdit :=
  lineTrimGo b (b.length + 1 - i) i

/-- Backward scan `while pos > 0 && b[pos - 1] == b'\n' { pos -= 1 }` of
the trailing-newline collapse branch. -/
def nlRunStart (b : List Nat) : Nat → Nat
  | 0 => 0
  | p + 1 => if b.getD p 0 == 10 then nlRunStart b p else p + 1

/-- End-of-file newline normalization of
`TrimTrailingWhitespaceAndEofNewline::run` (`src/rules/trailing_ws.rs`
lines 41-65): an empty buffer gains a newline; a buffer ending in two
newlines has its final newline run collapsed to one; a buffer not ending
in a newline gains one; otherwise no edit. -/
def eofNewlineEdits (b : List Nat) : List TextEdit :=
  if b.length = 0 then [⟨0, 0, [10]⟩]
  else if b.getD (b.length - 1) 0 == 10 && b.getD (b.length - 2) 0 == 10 &&
      decide (2 ≤ b.length) then
    [⟨nlRunStart b (b.length - 1), b.length, [10]⟩]
  else if !(b.getD (b.length - 1) 0 == 10) then
    [⟨b.length, b.length, [10]⟩]
  else []

/-- Whole run of the `trailing_whitespace` rule: collect both edit groups
and apply them through `Ctx::apply_edits`. -/
def trailingWsRun (b : List Nat) : List Nat :=
  apply_edits b (lineTrimLoop b 0 ++ eofNewlineEdits b)

/-- Scanner state of `collect_top_level_elements`
(`src/rules/compact_collections.rs` lines 190-239): the comment/string
classifier plus the three independent `i32` depth counters for `()`, `[]`
and `{}`. -/
structure ScanSt where
  cs : CommentState
  par : Int
  sq : Int
  br : Int
deriving DecidableEq

/-- Initial scanner state: fresh classifier, all depths zero. -/
def initScan : ScanSt := ⟨CommentState.new, 0, 0, 0⟩

/-- State change of one iteration of the scan loop: step the classifier
with the byte; if the byte is then classified as comment/string it is
skipped entirely, otherwise the depth counter matching the byte (if any)
is adjusted. -/
def ScanSt.update (st : ScanSt) (b : Nat) : ScanSt :=
  let cs := st.cs.step b
  if cs.in_comment_or_string then { st with cs := cs }
  else if b == 40 then { st with cs := cs, par := st.par + 1 }
  else if b == 41 then { st with cs := cs, par := st.par - 1 }
  else if b == 91 then { st with cs := cs, sq := st.sq + 1 }
  else if b == 93 then { st with cs := cs, sq := st.sq - 1 }
  else if b == 123 then { st with cs := cs, br := st.br + 1 }
  else if b == 125 then { st with cs := cs, br := st.br - 1 }
  else { st with cs := cs }

/-- Accumulator of the `collect_top_level_elements` loop: scanner state,
start offset of the current element, elements collected so far. -/
structure CollectAcc where
  st : ScanSt
  start : Nat
  elems : List (Nat × Nat)

/-- Body of the `collect_top_level_elements` loop at offset `i`: skip
bytes classified as comment/string; at a comma with all three depth
counters equal to zero, record the element boundary `(start, i)` and
restart the element at `i + 1`; otherwise just update the scanner state. -/
def collectStep (bytes : List Nat) (acc : CollectAcc) (i : Nat) : CollectAcc :=
  let b := bytes.getD i 0
  if (acc.st.cs.step b).in_comment_or_string then
    { acc with st := acc.st.update b }
  else if b == 44 && acc.st.par == 0 && acc.st.sq == 0 && acc.st.br == 0 then
    { st := acc.st.update b, start := i + 1,
      elems := acc.elems ++ [(acc.start, i)] }
  else { acc with st := acc.st.update b }

/-- `collect_top_level_elements` (`src/rules/compact_collections.rs` lines
190-239): run the scan over `[inner_start, inner_end)` and append the
final element `[start, inner_end)` when nonempty. -/
def collect_top_level_elements (bytes : List Nat)
    (inner_start inner_end : Nat) : List (Nat × Nat) :=
  let acc := (List.range' inner_start (inner_end - inner_start)).foldl
    (collectStep bytes) ⟨initScan, inner_start, []⟩
  acc.elems ++
    (if acc.start < inner_end then [(acc.start, inner_end)] else [])

/-- Scanner state obtained by replaying the scan from `a` over all bytes
of `[a, i)` (reference formulation used to state C8). -/
def scanStateAt (bytes : List Nat) (a i : Nat) : ScanSt :=
  (List.range' a (i - a)).foldl
    (fun st k => st.update (bytes.getD k 0)) initScan

/-- The claim's characterisation of a top-level separator in the region
started at `a`: offset `i` holds a comma that is not classified as
comment/string and all three depth counters of the replayed scan equal the
base depth zero. -/
def isTopLevelComma (bytes : List Nat) (a i : Nat) : Bool :=
  let st := scanStateAt bytes a i
  let b := bytes.getD i 0
  b == 44 && !((st.cs.step b).in_comment_or_string) &&
    st.par == 0 && st.sq == 0 && st.br == 0

/-- `is_ascii_op_char` from `src/rules/binary_ops.rs` lines 23-28:
`+ - * / % < > = & | !`. -/
def is_ascii_op_char (b : Nat) : Bool :=
  b == 43 || b == 45 || b == 42 || b == 47 || b == 37 || b == 60 ||
    b == 62 || b == 61 || b == 38 || b == 124 || b == 33

/-- Left scan of `is_unary_plus_minus` (`src/rules/binary_ops.rs` lines
50-69): walk left from the operator, skipping spaces and newlines; at the
first other byte report whether it marks the operator as unary (opening
delimiter, comma, semicolon, colon, operator char, or `=`); falling off
the front of the buffer also reports unary. -/
def unaryScanPM (bytes : List Nat) : Nat → Bool
  | 0 => true
  | j + 1 =>
      let b := bytes.getD j 0
      if is_space b || is_newline b then unaryScanPM bytes j
      else
        (b == 40 || b == 91 || b == 123 || b == 44 || b == 59 || b == 58) ||
          is_ascii_op_char b || b == 61

/-- `is_unary_plus_minus` (`src/rules/binary_ops.rs` lines 43-70). -/
def is_unary_plus_minus (bytes : List Nat) (i : Nat) : Bool :=
  let c := bytes.getD i 0
  if !(c == 43) && !(c == 45) then false
  else unaryScanPM bytes i

/-- Left scan of `is_unary_bang` (`src/rules/binary_ops.rs` lines 81-99):
as for `+`/`-` but the colon is not in the trigger set. -/
def unaryScanBang (bytes : List Nat) : Nat → Bool
  | 0 => true
  | j + 1 =>
      let b := bytes.getD j 0
      if is_space b || is_newline b then unaryScanBang bytes j
      else
        (b == 40 || b == 91 || b == 123 || b == 44 || b == 59) ||
          is_ascii_op_char b || b == 61

/-- `is_unary_bang` (`src/rules/binary_ops.rs` lines 74-100). -/
def is_unary_bang (bytes : List Nat) (i : Nat) : Bool :=
  if !(bytes.getD i 0 == 33) then false else unaryScanBang bytes i

/-- The nearest byte strictly before offset `i` that is not a space or a
newline — the claim's "nearest preceding non-whitespace byte" (reference
formulation used to state C5). -/
def prevNonWs (bytes : List Nat) : Nat → Option Nat
  | 0 => none
  | j + 1 =>
      let b := bytes.getD j 0
      if is_space b || is_newline b then prevNonWs bytes j
      else some b

/-- The claim's unary-trigger set for `+`/`-`: opening delimiter, comma,
semicolon, colon, another operator character, or an assignment sign. -/
def claimUnaryTriggerPM (b : Nat) : Bool :=
  (b == 40 || b == 91 || b == 123 || b == 44 || b == 59 || b == 58) ||
    is_ascii_op_char b || b == 61

/-- The unary-trigger set the code uses for `!`: as for `+`/`-` but
without the colon. -/
def claimUnaryTriggerBang (b : Nat) : Bool :=
  (b == 40 || b == 91 || b == 123 || b == 44 || b == 59) ||
    is_ascii_op_char b || b == 61

/-- Rust `u8::is_ascii_whitespace`: space, tab, LF, FF, CR. -/
def is_ascii_whitespace (b : Nat) : Bool :=
  b == 32 || b == 9 || b == 10 || b == 12 || b == 13

/-- Left whitespace-run scan of `fix_around_op` (`src/rules/binary_ops.rs`
lines 182-185): `while l > 0 && bytes[l-1].is_ascii_whitespace() &&
!is_newline(bytes[l-1]) { l -= 1 }`. -/
def wsRunLeft (bytes : List Nat) : Nat → Nat
  | 0 => 0
  | l + 1 =>
      if is_ascii_whitespace (bytes.getD l 0) &&
          !is_newline (bytes.getD l 0) then
        wsRunLeft bytes l
      else l + 1

/-- Right whitespace-run scan of `fix_around_op` (`src/rules/binary_ops.rs`
lines 203-206), fuelled by the remaining length: `while r < len &&
bytes[r].is_ascii_whitespace() && !is_newline(bytes[r]) { r += 1 }`. -/
def wsRightGo (bytes : List Nat) : Nat → Nat → Nat
  | 0, r => r
  | fuel + 1, r =>
      if decide (r < bytes.length) &&
          is_ascii_whitespace (bytes.getD r 0) &&
          !is_newline (bytes.getD r 0) then
        wsRightGo bytes fuel (r + 1)
      else r

/-- End of the whitespace run starting at `r` (stopping at newlines and at
the end of the buffer). -/
def wsRunRight (bytes : List Nat) (r : Nat) : Nat :=
  wsRightGo bytes (bytes.length - r) r

/-- `fix_around_op` (`src/rules/binary_ops.rs` lines 177-222): on each
side of the operator `[op_start, op_start + op_len)`, insert one space
when no whitespace is adjacent, collapse a whitespace run of length ≥ 2
to one space, and leave a run of exactly one byte untouched; the run
scans never cross a newline. -/
def fix_around_op (bytes : List Nat) (op_start op_len : Nat) :
    List TextEdit :=
  let op_end := op_start + op_len
  let l := wsRunLeft bytes op_start
  let left : List TextEdit :=
    if l == op_start then [⟨l, l, [32]⟩]
    else if !(op_start - l == 1) then [⟨l, op_start, [32]⟩]
    else []
  let r := wsRunRight bytes op_end
  let right : List TextEdit :=
    if r == op_end then [⟨r, r, [32]⟩]
    else if !(r - op_end == 1) then [⟨op_end, r, [32]⟩]
    else []
  left ++ right

/-- Normal form around a binary operator described by the amended claim:
everything before the left whitespace run, then the left padding — the
kept single pre-existing whitespace byte, or one space — the operator
bytes, the right padding, and everything from the end of the right run
on.  Newlines adjacent to the operator are left in place because the run
scans stop at them. -/
def opNormalized (bytes : List Nat) (op_start op_len : Nat) : List Nat :=
  let op_end := op_start + op_len
  let l := wsRunLeft bytes op_start
  let r := wsRunRight bytes op_end
  let leftSeg : List Nat :=
    if op_start - l == 1 then [bytes.getD l 0] else [32]
  let rightSeg : List Nat :=
    if r - op_end == 1 then [bytes.getD op_end 0] else [32]
  bytes.take l ++ leftSeg ++ (bytes.drop op_start).take op_len ++
    rightSeg ++ bytes.drop r

/-- `MAX_LINE_WIDTH` (both `src/rules/compact_collections.rs` and
`src/rules/expand_if_trailing.rs`). -/
def MAX_LINE_WIDTH : Nat := 80

/-- The byte slice `&bytes[a..b]`. -/
def sliceBytes (bytes : List Nat) (a b : Nat) : List Nat :=
  (bytes.drop a).take (b - a)

/-- `slice_has_newline` (`src/rules/compact_collections.rs` lines 91-100);
also the inline `(a..b).any(|k| is_newline(bytes[k]))` checks of
`src/rules/expand_if_trailing.rs`. -/
def slice_has_newline (bytes : List Nat) (s e : Nat) : Bool :=
  (List.range' s (e - s)).any (fun i => is_newline (bytes.getD i 0))

/-- Loop of `slice_has_comment`, fuelled by the remaining length: step a
fresh classifier over `[i, e)` and report whether a line or block comment
state is ever entered. -/
def sliceHasCommentGo (bytes : List Nat) (e : Nat) :
    Nat → CommentState → Nat → Bool
  | 0, _, _ => false
  | fuel + 1, cs, i =>
      if i < e then
        let cs2 := cs.step (bytes.getD i 0)
        if cs2.in_line || cs2.in_block then true
        else sliceHasCommentGo bytes e fuel cs2 (i + 1)
      else false

/-- `slice_has_comment` (`src/rules/compact_collections.rs` lines
102-115). -/
def slice_has_comment (bytes : List Nat) (s e : Nat) : Bool :=
  sliceHasCommentGo bytes e (e - s) CommentState.new s

/-- Byte-level rendering of Rust `char::is_whitespace` applied to a byte
cast to `char` (as `trim_ascii_slice` does): the Unicode whitespace code
points below 256 are 9-13, 32, 133 (NEL) and 160 (NBSP). -/
def isCharWhitespace (b : Nat) : Bool :=
  b == 9 || b == 10 || b == 11 || b == 12 || b == 13 || b == 32 ||
    b == 133 || b == 160

/-- `trim_ascii_slice` (`src/rules/compact_collections.rs` lines 241-254,
duplicated in `src/rules/expand_if_trailing.rs`): advance `start` past
leading whitespace bytes and retreat `end` past trailing ones; equivalent
to dropping whitespace from the front and, reversed, from the back. -/
def trim_ascii_slice (s : List Nat) : List Nat :=
  ((s.dropWhile isCharWhitespace).reverse.dropWhile isCharWhitespace).reverse

/-- Continuation byte 0x80-0xBF of a UTF-8 sequence. -/
def isCont (b : Nat) : Bool := 128 ≤ b && b ≤ 191

/-- Validity check of `std::str::from_utf8` (RFC 3629 well-formedness),
used to model the `from_utf8(...)` guards of the width-aware rules. -/
def isValidUtf8 : List Nat → Bool
  | [] => true
  | b :: rest =>
      if b ≤ 127 then isValidUtf8 rest
      else if 194 ≤ b && b ≤ 223 then
        match rest with
        | c1 :: r2 => isCont c1 && isValidUtf8 r2
        | [] => false
      else if b == 224 then
        match rest with
        | c1 :: c2 :: r2 =>
            (160 ≤ c1 && c1 ≤ 191) && isCont c2 && isValidUtf8 r2
        | _ => false
      else if (225 ≤ b && b ≤ 236) || b == 238 || b == 239 then
        match rest with
        | c1 :: c2 :: r2 => isCont c1 && isCont c2 && isValidUtf8 r2
        | _ => false
      else if b == 237 then
        match rest with
        | c1 :: c2 :: r2 =>
            (128 ≤ c1 && c1 ≤ 159) && isCont c2 && isValidUtf8 r2
        | _ => false
      else if b == 240 then
        match rest with
        | c1 :: c2 :: c3 :: r2 =>
            (144 ≤ c1 && c1 ≤ 191) && isCont c2 && isCont c3 &&
              isValidUtf8 r2
        | _ => false
      else if 241 ≤ b && b ≤ 243 then
        match rest with
        | c1 :: c2 :: c3 :: r2 =>
            isCont c1 && isCont c2 && isCont c3 && isValidUtf8 r2
        | _ => false
      else if b == 244 then
        match rest with
        | c1 :: c2 :: c3 :: r2 =>
            (128 ≤ c1 && c1 ≤ 143) && isCont c2 && isCont c3 &&
              isValidUtf8 r2
        | _ => false
      else false

/-- `trimmed_parts.join(", ")`. -/
def joinCommaSpace : List (List Nat) → List Nat
  | [] => []
  | [x] => x
  | x :: y :: rest => x ++ [44, 32] ++ joinCommaSpace (y :: rest)

/-- Backward scan `while line_start > 0 && !is_newline(bytes[line_start -
1]) { line_start -= 1 }` of the width-aware rules. -/
def lineStartAt (bytes : List Nat) : Nat → Nat
  | 0 => 0
  | p + 1 =>
      if !(is_newline (bytes.getD p 0)) then lineStartAt bytes p else p + 1

/-- Forward scan `while line_end < len && !is_newline(bytes[line_end])
{ line_end += 1 }`, fuelled by the remaining length. -/
def lineEndGo (bytes : List Nat) : Nat → Nat → Nat
  | 0, j => j
  | fuel + 1, j =>
      if decide (j < bytes.length) && !(is_newline (bytes.getD j 0)) then
        lineEndGo bytes fuel (j + 1)
      else j

/-- End of the line containing (or starting at) offset `j`. -/
def lineEndAt (bytes : List Nat) (j : Nat) : Nat :=
  lineEndGo bytes (bytes.length - j) j

/-- The candidate line length after collapsing (`src/rules/
compact_collections.rs` lines 296-308): old line length minus the
construct's old extent plus the replacement's length. -/
def compactNewLineLen (bytes : List Nat) (op cl : Nat)
    (repl : List Nat) : Nat :=
  lineEndAt bytes (cl + 1) - lineStartAt bytes op - (cl + 1 - op) +
    repl.length

/-- The `trimmed_parts` vector built by the element loop of
`try_compact_array` (`src/rules/compact_collections.rs` lines 272-285):
each top-level element's byte slice, trimmed, keeping only the nonempty
ones. -/
def compactParts (bytes : List Nat) (op cl : Nat) : List (List Nat) :=
  ((collect_top_level_elements bytes (op + 1) cl).map
    (fun p => trim_ascii_slice (sliceBytes bytes p.1 p.2))).filter
    (fun t => !t.isEmpty)

/-- The fully collapsed single-line rendering
`format!("[{}]", trimmed_parts.join(", "))` built by `try_compact_array`
(`src/rules/compact_collections.rs` lines 292-293). -/
def compactReplacement (bytes : List Nat) (op cl : Nat) : List Nat :=
  [91] ++ joinCommaSpace (compactParts bytes op cl) ++ [93]

/-- `CompactShortCollections::try_compact_array`
(`src/rules/compact_collections.rs` lines 259-317), for the array whose
matched brackets sit at offsets `op` and `cl`.  Returns the edit the Rust
code would push, if any.  The element loop's early return on a non-UTF-8
element slice is the `any` guard here; its surviving trimmed parts are
`compactParts`; the `new_line_len <= MAX_LINE_WIDTH` test on the candidate
line is `compactNewLineLen … ≤ MAX_LINE_WIDTH`. -/
def try_compact_array (bytes : List Nat) (op cl : Nat) : Option TextEdit :=
  if !(slice_has_newline bytes (op + 1) cl) then none
  else if slice_has_comment bytes (op + 1) cl then none
  else if (collect_top_level_elements bytes (op + 1) cl).any
      (fun p => !(isValidUtf8 (sliceBytes bytes p.1 p.2))) then none
  else if (compactParts bytes op cl).length < 2 then none
  else if compactNewLineLen bytes op cl (compactReplacement bytes op cl) ≤
      MAX_LINE_WIDTH then
    some ⟨op, cl + 1, compactReplacement bytes op cl⟩
  else none

/-- `is_ident_char` (`src/rules/expand_if_trailing.rs` lines 15-20). -/
def is_ident_char (b : Nat) : Bool :=
  (65 ≤ b && b ≤ 90) || (97 ≤ b && b ≤ 122) || (48 ≤ b && b ≤ 57) ||
    b == 95

/-- Depth-counting loop shared by `match_delim`
(`src/rules/compact_collections.rs` lines 118-150) and
`match_paren`/`match_brace` (`src/rules/expand_if_trailing.rs` lines
93-155, three verbatim copies in the source), fuelled by the remaining
length: step the classifier; skip classified bytes; count `open_b` up and
`close_b` down, answering the offset where the depth returns to zero, or
`none` on a close below depth zero or when the buffer ends first. -/
def matchDelimGo (bytes : List Nat) (open_b close_b : Nat) :
    Nat → CommentState → Nat → Nat → Option Nat
  | 0, _, _, _ => none
  | fuel + 1, cs, depth, i =>
      if i < bytes.length then
        let b := bytes.getD i 0
        let cs2 := cs.step b
        if cs2.in_comment_or_string then
          matchDelimGo bytes open_b close_b fuel cs2 depth (i + 1)
        else if b == open_b then
          matchDelimGo bytes open_b close_b fuel cs2 (depth + 1) (i + 1)
        else if b == close_b then
          if depth == 0 then none
          else if depth == 1 then some i
          else matchDelimGo bytes open_b close_b fuel cs2 (depth - 1) (i + 1)
        else matchDelimGo bytes open_b close_b fuel cs2 depth (i + 1)
      else none

/-- `match_delim` / `match_paren` / `match_brace`: match the balancing
closer for the opener at `off`. -/
def match_delim (bytes : List Nat) (off : Nat)
    (open_b close_b : Nat) : Option Nat :=
  matchDelimGo bytes open_b close_b (bytes.length - off)
    CommentState.new 0 off

/-- Space/tab skip `while i < len && is_space(bytes[i]) { i += 1 }` of
`try_expand_at`, fuelled by the remaining length. -/
def skipSpacesGo (bytes : List Nat) : Nat → Nat → Nat
  | 0, i => i
  | fuel + 1, i =>
      if decide (i < bytes.length) && is_space (bytes.getD i 0) then
        skipSpacesGo bytes fuel (i + 1)
      else i

/-- First offset at or after `i` holding a byte other than space/tab (or
the end of the buffer). -/
def skipSpaces (bytes : List Nat) (i : Nat) : Nat :=
  skipSpacesGo bytes (bytes.length - i) i

/-- Offsets recognised by the head-parsing phase of
`ExpandLongIfTrailingClosures::try_expand_at`
(`src/rules/expand_if_trailing.rs` lines 175-269). -/
structure IfHeadInfo where
  cond_open : Nat
  cond_close : Nat
  block1_open : Nat
  block1_close : Nat
  block2_open : Nat
  block2_close : Nat
  has_semi : Bool
  after : Nat
deriving DecidableEq

/-- Head-parsing phase of `try_expand_at` (`src/rules/expand_if_trailing.rs`
lines 175-269): recognise `if ( ... ) { ... } { ... } ;?` with a
non-identifier boundary around `if`, single-line condition and blocks, and
spaces-only gaps; `after` is the offset just past the optional semicolon. -/
def parseIfHead (bytes : List Nat) (start : Nat) : Option IfHeadInfo :=
  let len := bytes.length
  if !(decide (start + 1 < len)) then none
  else if !(bytes.getD start 0 == 105) then none
  else if !(bytes.getD (start + 1) 0 == 102) then none
  else if decide (start > 0) && is_ident_char (bytes.getD (start - 1) 0) then
    none
  else if decide (start + 2 < len) &&
      is_ident_char (bytes.getD (start + 2) 0) then none
  else
    let i1 := skipSpaces bytes (start + 2)
    if !(decide (i1 < len)) then none
    else if !(bytes.getD i1 0 == 40) then none
    else
      match match_delim bytes i1 40 41 with
      | none => none
      | some cond_close =>
        if slice_has_newline bytes (i1 + 1) cond_close then none
        else
          let i2 := skipSpaces bytes (cond_close + 1)
          if !(decide (i2 < len)) then none
          else if is_newline (bytes.getD i2 0) then none
          else if !(bytes.getD i2 0 == 123) then none
          else
            match match_delim bytes i2 123 125 with
            | none => none
            | some block1_close =>
              if slice_has_newline bytes (i2 + 1) block1_close then none
              else
                let i3 := skipSpaces bytes (block1_close + 1)
                if !(decide (i3 < len)) then none
                else if is_newline (bytes.getD i3 0) then none
                else if !(bytes.getD i3 0 == 123) then none
                else
                  match match_delim bytes i3 123 125 with
                  | none => none
                  | some block2_close =>
                    if slice_has_newline bytes (i3 + 1) block2_close then
                      none
                    else
                      let a1 := skipSpaces bytes (block2_close + 1)
                      let has_semi := decide (a1 < len) &&
                        bytes.getD a1 0 == 59
                      let after := if has_semi then a1 + 1 else a1
                      some ⟨i1, cond_close, i2, block1_close, i3,
                        block2_close, has_semi, after⟩

/-- Canonical single-line rendering built by `try_expand_at`
(`src/rules/expand_if_trailing.rs` lines 291-311):
`if (cond) { body1 } { body2 };?` from the trimmed bodies. -/
def ifCollapsed (bytes : List Nat) (info : IfHeadInfo) : List Nat :=
  let cond := trim_ascii_slice
    (sliceBytes bytes (info.cond_open + 1) info.cond_close)
  let b1 := trim_ascii_slice
    (sliceBytes bytes (info.block1_open + 1) info.block1_close)
  let b2 := trim_ascii_slice
    (sliceBytes bytes (info.block2_open + 1) info.block2_close)
  [105, 102, 32, 40] ++ cond ++ [41, 32, 123, 32] ++ b1 ++
    [32, 125, 32, 123, 32] ++ b2 ++ [125] ++
    (if info.has_semi then [59] else [])

/-- Multi-line K&R replacement built by `try_expand_at`
(`src/rules/expand_if_trailing.rs` lines 317-353). -/
def expandReplacement (bytes : List Nat) (info : IfHeadInfo)
    (indent : List Nat) : List Nat :=
  let cond := trim_ascii_slice
    (sliceBytes bytes (info.cond_open + 1) info.cond_close)
  let b1 := trim_ascii_slice
    (sliceBytes bytes (info.block1_open + 1) info.block1_close)
  let b2 := trim_ascii_slice
    (sliceBytes bytes (info.block2_open + 1) info.block2_close)
  let indent_body := indent ++ [32, 32, 32, 32]
  indent ++ [105, 102, 32, 40] ++ cond ++ [41, 32, 123, 10] ++
    indent_body ++ b1 ++ [10] ++ indent ++ [125, 32, 123, 10] ++
    indent_body ++ b2 ++ [10] ++ indent ++
    (if info.has_semi then [125, 59, 10] else [125, 10])

/-- Indentation prefix of the statement's line built by `try_expand_at`
(`src/rules/expand_if_trailing.rs` lines 326-328):
`bytes[line_start..start]`, or empty when that slice is not valid UTF-8
(`from_utf8(...).unwrap_or("")`). -/
def expandIndent (bytes : List Nat) (start : Nat) : List Nat :=
  let line_start := lineStartAt bytes start
  if isValidUtf8 (sliceBytes bytes line_start start) then
    sliceBytes bytes line_start start
  else []

/-- `ExpandLongIfTrailingClosures::try_expand_at`
(`src/rules/expand_if_trailing.rs` lines 175-360): parse the single-line
`if`-with-trailing-closures head, require the whole statement to be
single-line, require UTF-8 bodies, and emit the multi-line expansion only
when the canonical collapsed rendering exceeds `MAX_LINE_WIDTH`. -/
def try_expand_at (bytes : List Nat) (start : Nat) : Option TextEdit :=
  match parseIfHead bytes start with
  | none => none
  | some info =>
      if slice_has_newline bytes start info.after then none
      else if !(isValidUtf8
          (sliceBytes bytes (info.cond_open + 1) info.cond_close)) then none
      else if !(isValidUtf8
          (sliceBytes bytes (info.block1_open + 1) info.block1_close)) then
        none
      else if !(isValidUtf8
          (sliceBytes bytes (info.block2_open + 1) info.block2_close)) then
        none
      else if (ifCollapsed bytes info).length ≤ MAX_LINE_WIDTH then none
      else
        some ⟨start, info.after,
          expandReplacement bytes info (expandIndent bytes start)⟩

/-! ## Theorems -/

/-- C1 counterexample.  On the buffer "abcdef" with the conflicting batch
{[0,3) ↦ "X", [2,5) ↦ "Y"} (the second edit starts at 2, below the end
offset 3 consumed by the earlier-starting edit), the claim predicts that
the later-starting edit wins and the earlier-starting one is discarded,
i.e. the result of applying the surviving edit alone, "abYf".
`Ctx::apply_edits` instead applies both edits (first [2,5), then [0,3) on
the already-modified text) and returns "Xf": the earlier-starting edit is
not discarded, and no conflict resolution happens in `apply_edits` at all. -/
theorem apply_edits_no_conflict_drop_cex :
    apply_edits [97, 98, 99, 100, 101, 102]
        [⟨0, 3, [88]⟩, ⟨2, 5, [89]⟩] = [88, 102] ∧
      apply_edits [97, 98, 99, 100, 101, 102] [⟨2, 5, [89]⟩] =
        [97, 98, 89, 102] := by
  decide

/-- C1, amended.  The silent drop-on-conflict policy lives in the merge
phase of `Rewriter::format_only_pipe_args`, not in `Ctx::apply_edits`: the
merge loop produces exactly the simultaneous splice of the surviving
replacements, where a replacement starting before the end offset consumed
by a previously kept (earlier-starting) replacement is silently discarded
— the earlier-starting replacement wins. -/
theorem rewriter_merge_drops_conflicts_earlier_wins
    (src : List Nat) (reps : List TextEdit) :
    formatOnlyPipeArgsMerge src reps =
      spliceAll src (survivors (sortEdits reps) 0) 0 := by
  suffices h : ∀ (es : List TextEdit) (cur : Nat),
      mergeLoop src es cur = spliceAll src (survivors es cur) cur by
    exact h (sortEdits reps) 0
  intro es
  induction es with
  | nil => intro cur; rfl
  | cons e rest ih =>
      intro cur
      by_cases hlt : e.start_byte < cur
      · simp only [mergeLoop, survivors, if_pos hlt]
        exact ih cur
      · simp only [mergeLoop, survivors, if_neg hlt, spliceAll]
        rw [ih e.end_byte]

/-- C3 counterexample.  Stepping the classifier from the initial state over
the bytes `"` `\` `\` `"` (a double quote opened, then a quote preceded by
exactly two — an even number of — consecutive backslashes), the claim
requires the final quote to end the in-string state; the code stays inside
the string because it only inspects the single previous byte. -/
theorem comment_state_even_backslash_cex :
    (stepAll CommentState.new [34, 92, 92, 34]).in_double = true := by
  decide

/-- C3, amended.  From a state inside a double-quoted string, stepping over
`k` consecutive backslashes and then a double quote leaves the in-string
state exactly when `k = 0` and the previously seen byte is not a backslash:
the machine inspects only the single immediately preceding byte, so any
nonzero number of consecutive backslashes — even as well as odd — keeps the
string open.  (In particular the claim's first half holds: an odd number of
preceding backslashes never ends the string.) -/
theorem comment_state_quote_exit_iff_prev_not_backslash
    (s : CommentState) (h1 : s.in_line = false) (h2 : s.in_block = false)
    (h3 : s.in_single = false) (h4 : s.in_double = true) (k : Nat) :
    (stepAll s (List.replicate k 92 ++ [34])).in_double =
      (if k = 0 then s.prev == 92 else true) := by
  induction k generalizing s with
  | zero =>
      simp only [List.replicate, List.nil_append, stepAll, List.foldl,
        CommentState.step, h1, h2, h3, h4, if_neg, if_pos, Bool.false_eq_true,
        if_false, if_true]
      cases hp : (s.prev == 92) with
      | false => simp [hp]
      | true => simp [hp]
  | succ n ih =>
      have hstep : stepAll s (List.replicate (n + 1) 92 ++ [34]) =
          stepAll (s.step 92) (List.replicate n 92 ++ [34]) := by
        simp [List.replicate, stepAll]
      rw [hstep]
      have hs92 : s.step 92 =
          { s with in_double := true, prev := 92 } := by
        simp [CommentState.step, h1, h2, h3, h4]
      rw [hs92, ih]
      · simp
      · exact h1
      · exact h2
      · exact h3
      · rfl

/-- C3 witness: the amended theorem applied at a concrete in-string state
and `k = 2`. -/
theorem comment_state_quote_exit_witness :
    (stepAll (CommentState.mk false false false true 0)
        (List.replicate 2 92 ++ [34])).in_double =
      (if 2 = 0 then ((0 : Nat) == 92) else true) :=
  comment_state_quote_exit_iff_prev_not_backslash
    (CommentState.mk false false false true 0) rfl rfl rfl rfl 2

theorem chainOk_tail {e : TextEdit} {rest : List TextEdit}
    (h : chainOk (e :: rest) = true) : chainOk rest = true := by
  cases rest with
  | nil => rfl
  | cons e2 r2 =>
      simp only [chainOk, Bool.and_eq_true] at h
      exact h.2

theorem chainOk_le_starts {e : TextEdit} {rest : List TextEdit}
    (h : chainOk (e :: rest) = true)
    (hmono : ∀ x ∈ rest, x.start_byte ≤ x.end_byte) :
    ∀ x ∈ rest, e.end_byte ≤ x.start_byte := by
  induction rest generalizing e with
  | nil => intro x hx; cases hx
  | cons e2 r2 ih =>
      simp only [chainOk, Bool.and_eq_true, decide_eq_true_eq] at h
      intro x hx
      rcases List.mem_cons.mp hx with rfl | hx2
      · exact h.1
      · have h2 : e2.end_byte ≤ x.start_byte :=
          ih h.2 (fun y hy => hmono y (List.mem_cons_of_mem _ hy)) x hx2
        exact le_trans h.1
          (le_trans (hmono e2 (List.mem_cons_self _ _)) h2)

/-- Core induction for C7: applying a start-sorted, pairwise disjoint,
in-bounds edit list from the highest start offset down to the lowest
(`foldr applyOne`) produces the prefix `[0, c)` of the original text
followed by the simultaneous splice starting at cursor `c`, for any cursor
`c` that lies at or before every edit's start. -/
theorem foldr_applyOne_eq_spliceAll (t : List Nat) :
    ∀ (es : List TextEdit) (c : Nat),
      chainOk es = true →
      (∀ e ∈ es, e.start_byte ≤ e.end_byte ∧ e.end_byte ≤ t.length) →
      (∀ e ∈ es, c ≤ e.start_byte) →
      es.foldr applyOne t = t.take c ++ spliceAll t es c := by
  intro es
  induction es with
  | nil =>
      intro c _ _ _
      simp [spliceAll]
  | cons e rest ih =>
      intro c hchain hwf hc
      have hwf_e := hwf e (List.mem_cons_self _ _)
      have hse : e.start_byte ≤ e.end_byte := hwf_e.1
      have het : e.end_byte ≤ t.length := hwf_e.2
      have hrest := ih e.end_byte (chainOk_tail hchain)
        (fun x hx => hwf x (List.mem_cons_of_mem _ hx))
        (chainOk_le_starts hchain
          (fun x hx => (hwf x (List.mem_cons_of_mem _ hx)).1))
      have hlen : (t.take e.end_byte).length = e.end_byte := by
        simp [List.length_take, Nat.min_eq_left het]
      have hfold : rest.foldr applyOne t =
          t.take e.end_byte ++ spliceAll t rest e.end_byte := hrest
      have htake : (rest.foldr applyOne t).take e.start_byte =
          t.take e.start_byte := by
        rw [hfold, List.take_append_of_le_length (by omega),
          List.take_take, Nat.min_eq_left hse]
      have hdrop : (rest.foldr applyOne t).drop e.end_byte =
          spliceAll t rest e.end_byte := by
        rw [hfold, List.drop_left' hlen]
      have hsplit : t.take e.start_byte =
          t.take c ++ (t.drop c).take (e.start_byte - c) := by
        have hce : c ≤ e.start_byte := hc e (List.mem_cons_self _ _)
        rw [← List.take_add]
        congr 1
        omega
      calc (e :: rest).foldr applyOne t
          = (rest.foldr applyOne t).take e.start_byte ++ e.replacement ++
              (rest.foldr applyOne t).drop e.end_byte := rfl
        _ = t.take e.start_byte ++ e.replacement ++
              spliceAll t rest e.end_byte := by rw [htake, hdrop]
        _ = (t.take c ++ (t.drop c).take (e.start_byte - c)) ++
              e.replacement ++ spliceAll t rest e.end_byte := by
              rw [← hsplit]
        _ = t.take c ++ spliceAll t (e :: rest) c := by
              simp [spliceAll]

/-- C7.  For every edit batch whose start-sorted form has pairwise
non-overlapping, in-bounds ranges, `Ctx::apply_edits` (sort ascending by
start offset, then apply from the highest start offset to the lowest)
produces exactly the simultaneous splice in which each edit's half-open
byte range of the pre-edit text is replaced by its replacement. -/
theorem apply_edits_eq_simultaneous_splice (t : List Nat)
    (es : List TextEdit)
    (hchain : chainOk (sortEdits es) = true)
    (hwf : ∀ e ∈ es, e.start_byte ≤ e.end_byte ∧ e.end_byte ≤ t.length) :
    apply_edits t es = spliceAll t (sortEdits es) 0 := by
  have hperm : ∀ e ∈ sortEdits es, e ∈ es := by
    intro e he
    exact (List.perm_insertionSort
      (fun a b : TextEdit => a.start_byte ≤ b.start_byte) es).mem_iff.mp
      (by simpa [sortEdits] using he)
  have h := foldr_applyOne_eq_spliceAll t (sortEdits es) 0 hchain
    (fun e he => hwf e (hperm e he)) (fun e _ => Nat.zero_le _)
  simpa [apply_edits] using h

/-- C7 witness: the theorem applied to the buffer "abcdef" and the
unsorted disjoint batch {[4,5) ↦ "Z", [1,2) ↦ "Y"}. -/
theorem apply_edits_eq_simultaneous_splice_witness :
    chainOk (sortEdits [⟨4, 5, [90]⟩, ⟨1, 2, [89]⟩]) = true ∧
      (∀ e ∈ ([⟨4, 5, [90]⟩, ⟨1, 2, [89]⟩] : List TextEdit),
        e.start_byte ≤ e.end_byte ∧
          e.end_byte ≤ ([97, 98, 99, 100, 101, 102] : List Nat).length) ∧
      apply_edits [97, 98, 99, 100, 101, 102]
          [⟨4, 5, [90]⟩, ⟨1, 2, [89]⟩] =
        spliceAll [97, 98, 99, 100, 101, 102]
          (sortEdits [⟨4, 5, [90]⟩, ⟨1, 2, [89]⟩]) 0 :=
  ⟨by decide, by decide,
    apply_edits_eq_simultaneous_splice _ _ (by decide) (by decide)⟩

theorem scanGo_ge (b : List Nat) : ∀ (fuel j : Nat), j ≤ scanGo b fuel j := by
  intro fuel
  induction fuel with
  | zero => intro j; exact Nat.le_refl j
  | succ n ih =>
      intro j
      simp only [scanGo]
      split
      · exact le_trans (Nat.le_succ j) (ih (j + 1))
      · exact Nat.le_refl j

theorem scanToNl_ge (b : List Nat) (j : Nat) : j ≤ scanToNl b j :=
  scanGo_ge b (b.length - j) j

/-- C9 failing input.  On "x \n \n" (trailing newline preceded by a space
on each line), the line-trim edits delete the two spaces but the
end-of-file check ran on the pre-edit text — which did not yet end in two
newlines — so no collapse edit is emitted and the output "x\n\n" ends with
two trailing newlines, contradicting the claim (and the code's own comment
"Ensure exactly one trailing newline"). -/
theorem trailing_ws_two_trailing_newlines_bug :
    trailingWsRun [120, 32, 10, 32, 10] = [120, 10, 10] := by
  decide

/-- C10.  `Ctx::apply_edits` called with an empty edit batch succeeds
immediately: for every parse function (even one that always fails, so no
reparse can have been attempted) the text buffer and the syntax tree are
returned exactly as they were. -/
theorem apply_edits_empty_noop {τ : Type} (parse : List Nat → Option τ)
    (st : List Nat × τ) : applyEditsCtx parse st [] = some st :=
  rfl

theorem scanStateAt_concat (bytes : List Nat) (a n : Nat) :
    scanStateAt bytes a (a + (n + 1)) =
      (scanStateAt bytes a (a + n)).update (bytes.getD (a + n) 0) := by
  unfold scanStateAt
  have h1 : a + (n + 1) - a = n + 1 := by omega
  have h2 : a + n - a = n := by omega
  rw [h1, h2, List.range'_1_concat, List.foldl_append]
  rfl

/-- Loop invariant of `collect_top_level_elements`: after scanning
`[a, a + n)`, the accumulator's scanner state is the replayed state, and
the recorded boundary offsets are exactly the offsets in `[a, a + n)`
satisfying the claim's top-level-comma characterisation. -/
theorem collect_fold_inv (bytes : List Nat) (a : Nat) : ∀ n : Nat,
    ((List.range' a n).foldl (collectStep bytes)
        ⟨initScan, a, []⟩).st = scanStateAt bytes a (a + n) ∧
      (((List.range' a n).foldl (collectStep bytes)
          ⟨initScan, a, []⟩).elems).map Prod.snd =
        (List.range' a n).filter (isTopLevelComma bytes a) := by
  intro n
  induction n with
  | zero =>
      constructor
      · simp [scanStateAt]
      · simp
  | succ m ih =>
      obtain ⟨ihst, ihel⟩ := ih
      rw [List.range'_1_concat, List.foldl_append, List.filter_append]
      set A := (List.range' a m).foldl (collectStep bytes)
        (⟨initScan, a, []⟩ : CollectAcc) with hA
      simp only [List.foldl_cons, List.foldl_nil]
      rw [scanStateAt_concat]
      set b := bytes.getD (a + m) 0 with hb
      by_cases hskip : (A.st.cs.step b).in_comment_or_string = true
      · have hpred : isTopLevelComma bytes a (a + m) = false := by
          simp only [isTopLevelComma]
          rw [← ihst, ← hb]
          simp [hskip]
        constructor
        · simp only [collectStep, ← hb, if_pos hskip]
          rw [ihst]
        · simp only [collectStep, ← hb, if_pos hskip]
          rw [List.filter_cons_of_neg (by simp [hpred]), List.filter_nil,
            List.append_nil]
          exact ihel
      · have hskipf : (A.st.cs.step b).in_comment_or_string = false := by
          simpa using hskip
        by_cases hcomma : (b == 44 && A.st.par == 0 && A.st.sq == 0 &&
            A.st.br == 0) = true
        · have hpred : isTopLevelComma bytes a (a + m) = true := by
            simp only [isTopLevelComma]
            rw [← ihst, ← hb, hskipf]
            simp only [Bool.not_false, Bool.and_true]
            exact hcomma
          constructor
          · simp only [collectStep, ← hb, if_neg hskip, if_pos hcomma]
            · rw [ihst]
          · simp only [collectStep, ← hb, if_neg hskip, if_pos hcomma]
            rw [List.filter_cons_of_pos (by simp [hpred]), List.filter_nil]
            rw [List.map_append, ihel]
            rfl
        · have hcommaf : (b == 44 && A.st.par == 0 && A.st.sq == 0 &&
              A.st.br == 0) = false := by
            simpa using hcomma
          have hpred : isTopLevelComma bytes a (a + m) = false := by
            simp only [isTopLevelComma]
            rw [← ihst, ← hb, hskipf]
            simp only [Bool.not_false, Bool.and_true]
            exact hcommaf
          constructor
          · simp only [collectStep, ← hb, if_neg hskip, if_neg hcomma]
            rw [ihst]
          · simp only [collectStep, ← hb, if_neg hskip, if_neg hcomma]
            rw [List.filter_cons_of_neg (by simp [hpred]), List.filter_nil,
              List.append_nil]
            exact ihel

/-- C8.  The boundary offsets recorded by `collect_top_level_elements`
over `[inner_start, inner_end)` — the second components of its element
ranges, excluding the final element's end `inner_end` — are exactly the
offsets holding a comma that is not classified as string/comment and at
which all three bracket depth counters equal the region's base depth
zero; consequently a comma nested inside any bracket kind or inside a
string/comment is never reported as a top-level separator. -/
theorem collect_top_level_elements_comma_iff (bytes : List Nat)
    (inner_start inner_end : Nat) :
    ((collect_top_level_elements bytes inner_start inner_end).map
        Prod.snd).filter (fun i => decide (i < inner_end)) =
      (List.range' inner_start (inner_end - inner_start)).filter
        (isTopLevelComma bytes inner_start) := by
  obtain ⟨hst, hel⟩ := collect_fold_inv bytes inner_start
    (inner_end - inner_start)
  simp only [collect_top_level_elements, List.map_append, List.filter_append]
  rw [hel]
  have h1 : ((List.range' inner_start (inner_end - inner_start)).filter
        (isTopLevelComma bytes inner_start)).filter
        (fun i => decide (i < inner_end)) =
      (List.range' inner_start (inner_end - inner_start)).filter
        (isTopLevelComma bytes inner_start) := by
    apply List.filter_eq_self.mpr
    intro x hx
    have hx' := List.mem_of_mem_filter hx
    rw [List.mem_range'_1] at hx'
    simp only [decide_eq_true_eq]
    omega
  rw [h1]
  have h2 : ((if ((List.range' inner_start (inner_end - inner_start)).foldl
          (collectStep bytes) ⟨initScan, inner_start, []⟩).start < inner_end
        then [(((List.range' inner_start (inner_end - inner_start)).foldl
          (collectStep bytes) ⟨initScan, inner_start, []⟩).start, inner_end)]
        else []).map Prod.snd).filter (fun i => decide (i < inner_end)) =
      [] := by
    split
    · simp
    · simp
  rw [h2, List.append_nil]

theorem wsRunLeft_le (bytes : List Nat) : ∀ s, wsRunLeft bytes s ≤ s := by
  intro s
  induction s with
  | zero => exact Nat.le_refl 0
  | succ m ih =>
      simp only [wsRunLeft]
      split
      · exact le_trans ih (Nat.le_succ m)
      · exact Nat.le_refl (m + 1)

theorem wsRightGo_ge (bytes : List Nat) :
    ∀ fuel r, r ≤ wsRightGo bytes fuel r := by
  intro fuel
  induction fuel with
  | zero => intro r; exact Nat.le_refl r
  | succ m ih =>
      intro r
      simp only [wsRightGo]
      split
      · exact le_trans (Nat.le_succ r) (ih (r + 1))
      · exact Nat.le_refl r

theorem wsRightGo_le (bytes : List Nat) :
    ∀ fuel r, r ≤ bytes.length → wsRightGo bytes fuel r ≤ bytes.length := by
  intro fuel
  induction fuel with
  | zero => intro r h; exact h
  | succ m ih =>
      intro r h
      simp only [wsRightGo]
      by_cases hc : (decide (r < bytes.length) &&
          is_ascii_whitespace (bytes.getD r 0) &&
          !is_newline (bytes.getD r 0)) = true
      · rw [if_pos hc]
        have hr : r < bytes.length := by
          simp only [Bool.and_eq_true, decide_eq_true_eq] at hc
          exact hc.1.1
        exact ih (r + 1) hr
      · rw [if_neg hc]
        exact h

theorem unaryScanPM_eq (bytes : List Nat) :
    ∀ j, unaryScanPM bytes j =
      (prevNonWs bytes j).all claimUnaryTriggerPM := by
  intro j
  induction j with
  | zero => rfl
  | succ m ih =>
      simp only [unaryScanPM, prevNonWs]
      by_cases h : (is_space (bytes.getD m 0) ||
          is_newline (bytes.getD m 0)) = true
      · rw [if_pos h, if_pos h]; exact ih
      · rw [if_neg h, if_neg h]; rfl

theorem unaryScanBang_eq (bytes : List Nat) :
    ∀ j, unaryScanBang bytes j =
      (prevNonWs bytes j).all claimUnaryTriggerBang := by
  intro j
  induction j with
  | zero => rfl
  | succ m ih =>
      simp only [unaryScanBang, prevNonWs]
      by_cases h : (is_space (bytes.getD m 0) ||
          is_newline (bytes.getD m 0)) = true
      · rw [if_pos h, if_pos h]; exact ih
      · rw [if_neg h, if_neg h]; rfl

/-- C5 counterexample.  In "x: !y" (bytes [120, 58, 32, 33, 121]) the
nearest preceding non-whitespace byte of the `!` at offset 3 is the colon;
the claim classifies it unary and untouched, but `is_unary_bang` answers
false (its trigger set has no colon), so the rule treats it as binary and
`fix_around_op` inserts a space producing "x: ! y". -/
theorem bang_after_colon_cex :
    is_unary_bang [120, 58, 32, 33, 121] 3 = false ∧
      apply_edits [120, 58, 32, 33, 121]
        (fix_around_op [120, 58, 32, 33, 121] 3 1) =
        [120, 58, 32, 33, 32, 121] := by
  decide

/-- C5, amended.  (1) `+`/`-` are classified unary exactly when the
nearest preceding non-whitespace byte lies in the claim's trigger set —
opening delimiter, comma, semicolon, colon, operator character, or `=` —
or no such byte exists; (2) `!` likewise but with the colon absent from
its trigger set; (3) for a binary occurrence, applying `fix_around_op`'s
edits yields the normal form with exactly one space on each side of the
operator, except that a pre-existing single whitespace byte (e.g. a lone
tab) on a side is left as-is; whitespace runs are never scanned or
collapsed across a newline. -/
theorem binary_op_unary_test_and_spacing :
    (∀ (bytes : List Nat) (i : Nat),
        (bytes.getD i 0 == 43 || bytes.getD i 0 == 45) = true →
        is_unary_plus_minus bytes i =
          (prevNonWs bytes i).all claimUnaryTriggerPM) ∧
      (∀ (bytes : List Nat) (i : Nat),
        (bytes.getD i 0 == 33) = true →
        is_unary_bang bytes i =
          (prevNonWs bytes i).all claimUnaryTriggerBang) ∧
      (∀ (bytes : List Nat) (op_start op_len : Nat),
        1 ≤ op_len → op_start + op_len ≤ bytes.length →
        apply_edits bytes (fix_around_op bytes op_start op_len) =
          opNormalized bytes op_start op_len) := by
  refine ⟨?_, ?_, ?_⟩
  · intro bytes i hop
    have hguard : (!(bytes.getD i 0 == 43) && !(bytes.getD i 0 == 45)) =
        false := by
      cases h43 : (bytes.getD i 0 == 43) <;>
        cases h45 : (bytes.getD i 0 == 45) <;> simp_all
    simp only [is_unary_plus_minus, hguard, Bool.false_eq_true, if_false]
    exact unaryScanPM_eq bytes i
  · intro bytes i hop
    have hguard : (!(bytes.getD i 0 == 33)) = false := by
      rw [hop]; rfl
    simp only [is_unary_bang, hguard, Bool.false_eq_true, if_false]
    exact unaryScanBang_eq bytes i
  · intro bytes s n hn hlen
    have hls : wsRunLeft bytes s ≤ s := wsRunLeft_le bytes s
    have her : s + n ≤ wsRunRight bytes (s + n) :=
      wsRightGo_ge bytes (bytes.length - (s + n)) (s + n)
    have hrlen : wsRunRight bytes (s + n) ≤ bytes.length :=
      wsRightGo_le bytes (bytes.length - (s + n)) (s + n) hlen
    set l := wsRunLeft bytes s with hldef
    set r := wsRunRight bytes (s + n) with hrdef
    have hfix : fix_around_op bytes s n =
        (if s - l = 1 then ([] : List TextEdit) else [⟨l, s, [32]⟩]) ++
          (if r - (s + n) = 1 then ([] : List TextEdit)
            else [⟨s + n, r, [32]⟩]) := by
      simp only [fix_around_op, ← hldef, ← hrdef, beq_iff_eq]
      congr 1
      · by_cases h0 : l = s
        · rw [if_pos h0, if_neg (by omega)]
          rw [h0]
        · rw [if_neg h0]
          by_cases h1 : s - l = 1
          · rw [if_neg (by simp [h1]), if_pos h1]
          · rw [if_pos (by simp [h1]), if_neg h1]
      · by_cases h0 : r = s + n
        · rw [if_pos h0, if_neg (by omega)]
          rw [h0]
        · rw [if_neg h0]
          by_cases h1 : r - (s + n) = 1
          · rw [if_neg (by simp [h1]), if_pos h1]
          · rw [if_pos (by simp [h1]), if_neg h1]
    have hopn : opNormalized bytes s n =
        bytes.take l ++
          (if s - l = 1 then [bytes.getD l 0] else [32]) ++
          (bytes.drop s).take n ++
          (if r - (s + n) = 1 then [bytes.getD (s + n) 0] else [32]) ++
          bytes.drop r := by
      simp only [opNormalized, ← hldef, ← hrdef, beq_iff_eq]
    have htake_s : s - l = 1 → bytes.take s =
        bytes.take l ++ [bytes.getD l 0] := by
      intro h1
      have hlt : l < bytes.length := by omega
      have hs : s = l + 1 := by omega
      rw [hs, List.take_succ, List.getElem?_eq_getElem hlt]
      simp [List.getD_eq_getElem?_getD, List.getElem?_eq_getElem hlt]
    have hdrop_e : r - (s + n) = 1 → bytes.drop (s + n) =
        [bytes.getD (s + n) 0] ++ bytes.drop r := by
      intro h1
      have helt : s + n < bytes.length := by omega
      have hre : r = (s + n) + 1 := by omega
      rw [hre, List.drop_eq_getElem_cons helt]
      simp [List.getD_eq_getElem?_getD, List.getElem?_eq_getElem helt]
    rw [hfix, hopn]
    by_cases hL : s - l = 1 <;> by_cases hR : r - (s + n) = 1
    · -- both runs have length exactly one: no edits at all
      rw [if_pos hL, if_pos hR, if_pos hL, if_pos hR]
      have h0 : apply_edits bytes ([] ++ []) = bytes := rfl
      rw [h0]
      conv_lhs => rw [← List.take_append_drop s bytes]
      rw [htake_s hL]
      conv_lhs => rw [← List.take_append_drop n (bytes.drop s)]
      rw [List.drop_drop, hdrop_e hR]
      simp [List.append_assoc]
    · -- left run length one, right side edited
      rw [if_pos hL, if_neg hR, if_pos hL, if_neg hR]
      have h0 : apply_edits bytes ([] ++ [⟨s + n, r, [32]⟩]) =
          bytes.take (s + n) ++ [32] ++ bytes.drop r := rfl
      rw [h0]
      have h1 : bytes.take (s + n) =
          bytes.take s ++ (bytes.drop s).take n := List.take_add bytes s n
      rw [h1, htake_s hL]
    · -- right run length one, left side edited
      rw [if_neg hL, if_pos hR, if_neg hL, if_pos hR]
      have h0 : apply_edits bytes ([⟨l, s, [32]⟩] ++ []) =
          bytes.take l ++ [32] ++ bytes.drop s := rfl
      rw [h0]
      conv_lhs => rw [← List.take_append_drop n (bytes.drop s)]
      rw [List.drop_drop, hdrop_e hR]
      simp [List.append_assoc]
    · -- both sides edited
      rw [if_neg hL, if_neg hR, if_neg hL, if_neg hR]
      have hle : l ≤ s + n := by omega
      have hsort : sortEdits [⟨l, s, [32]⟩, ⟨s + n, r, [32]⟩] =
          [⟨l, s, [32]⟩, ⟨s + n, r, [32]⟩] := by
        simp [sortEdits, List.insertionSort, List.orderedInsert, hle]
      have h0 : apply_edits bytes [⟨l, s, [32]⟩, ⟨s + n, r, [32]⟩] =
          applyOne ⟨l, s, [32]⟩ (applyOne ⟨s + n, r, [32]⟩ bytes) := by
        rw [apply_edits, hsort]
        rfl
      have hlen_take : (bytes.take (s + n)).length = s + n := by
        simp [List.length_take]
        omega
      have h1 : applyOne ⟨s + n, r, [32]⟩ bytes =
          bytes.take (s + n) ++ [32] ++ bytes.drop r := rfl
      have h2 : (bytes.take (s + n) ++ [32] ++ bytes.drop r).take l =
          bytes.take l := by
        rw [List.append_assoc,
          List.take_append_of_le_length (by omega),
          List.take_take, Nat.min_eq_left (by omega)]
      have h3 : (bytes.take (s + n) ++ [32] ++ bytes.drop r).drop s =
          (bytes.drop s).take n ++ [32] ++ bytes.drop r := by
        rw [List.append_assoc,
          List.drop_append_of_le_length (by omega),
          List.drop_take]
        have hns : s + n - s = n := by omega
        rw [hns, ← List.append_assoc]
      have h5 : ([⟨l, s, [32]⟩] ++ [⟨s + n, r, [32]⟩] : List TextEdit) =
          [⟨l, s, [32]⟩, ⟨s + n, r, [32]⟩] := rfl
      have h4 : applyOne ⟨l, s, [32]⟩
            (bytes.take (s + n) ++ [32] ++ bytes.drop r) =
          bytes.take l ++ [32] ++
            ((bytes.drop s).take n ++ [32] ++ bytes.drop r) := by
        simp only [applyOne]
        rw [h2, h3]
      rw [h5, h0, h1, h4]
      simp [List.append_assoc]

/-- C6 counterexample.  The array "[1,//x\n2]" (bytes [91, 49, 44, 47,
47, 120, 10, 50, 93], brackets at 0 and 8) is currently multi-line, and
its whole buffer is 9 bytes, so any single-line rendering of the
construct trivially fits within 80 columns — yet `try_compact_array`
emits no edit at all, because the construct contains a comment: the
claim's affirmative branch (a fitting multi-line construct IS collapsed)
fails on the code's candidacy guards. -/
theorem comment_array_not_collapsed_cex :
    slice_has_newline [91, 49, 44, 47, 47, 120, 10, 50, 93] 1 8 = true ∧
      ([91, 49, 44, 47, 47, 120, 10, 50, 93] : List Nat).length ≤
        MAX_LINE_WIDTH ∧
      try_compact_array [91, 49, 44, 47, 47, 120, 10, 50, 93] 0 8 =
        none := by
  decide

/-- C6, amended.  The three-way width decision holds for the constructs
that pass the rules' candidacy guards, with no partial collapse.
(1) For an array that is currently multi-line, contains no comment, whose
element slices are valid UTF-8 and which has at least two nonempty
trimmed elements, `try_compact_array` is exactly: collapse — replace
`[op, cl+1)` by the fully collapsed rendering — when the resulting
candidate line fits within `MAX_LINE_WIDTH` = 80 columns, and no edit
otherwise.  (2) For an `if`-with-trailing-closures statement whose head
parses, which is currently single-line and whose bodies are valid UTF-8,
`try_expand_at` is exactly: no edit when the canonical collapsed
rendering fits within 80 columns, and the canonical multi-line expansion
of the whole statement `[start, after)` when it exceeds 80. -/
theorem width_decision_three_way_guarded :
    (∀ (bytes : List Nat) (op cl : Nat),
        slice_has_newline bytes (op + 1) cl = true →
        slice_has_comment bytes (op + 1) cl = false →
        (collect_top_level_elements bytes (op + 1) cl).any
          (fun p => !(isValidUtf8 (sliceBytes bytes p.1 p.2))) = false →
        ¬((compactParts bytes op cl).length < 2) →
        try_compact_array bytes op cl =
          (if compactNewLineLen bytes op cl
              (compactReplacement bytes op cl) ≤ MAX_LINE_WIDTH then
            some ⟨op, cl + 1, compactReplacement bytes op cl⟩
          else none)) ∧
      (∀ (bytes : List Nat) (start : Nat) (info : IfHeadInfo),
        parseIfHead bytes start = some info →
        slice_has_newline bytes start info.after = false →
        isValidUtf8
          (sliceBytes bytes (info.cond_open + 1) info.cond_close) = true →
        isValidUtf8
          (sliceBytes bytes (info.block1_open + 1) info.block1_close) =
          true →
        isValidUtf8
          (sliceBytes bytes (info.block2_open + 1) info.block2_close) =
          true →
        try_expand_at bytes start =
          (if (ifCollapsed bytes info).length ≤ MAX_LINE_WIDTH then none
          else some ⟨start, info.after,
            expandReplacement bytes info (expandIndent bytes start)⟩)) := by
  constructor
  · intro bytes op cl h1 h2 h3 h4
    unfold try_compact_array
    rw [if_neg (by simp [h1]), if_neg (by simp [h2]),
      if_neg (by simp [h3]), if_neg h4]
  · intro bytes start info hp hsl hu1 hu2 hu3
    simp only [try_expand_at, hp]
    rw [if_neg (by simp [hsl]), if_neg (by simp [hu1]),
      if_neg (by simp [hu2]), if_neg (by simp [hu3])]

set_option maxRecDepth 100000 in
/-- C6 witness: the amended theorem applied to the two-line array
"[1,\n2]" (guards hold, candidate line "[1, 2]" fits, so it is collapsed)
and to a 93-byte single-line `if (a) {bb…b} {c}` whose collapsed
rendering is 96 columns (so it is expanded). -/
theorem width_decision_three_way_guarded_witness :
    (try_compact_array [91, 49, 44, 10, 50, 93] 0 5 =
      (if compactNewLineLen [91, 49, 44, 10, 50, 93] 0 5
          (compactReplacement [91, 49, 44, 10, 50, 93] 0 5) ≤
          MAX_LINE_WIDTH then
        some ⟨0, 6, compactReplacement [91, 49, 44, 10, 50, 93] 0 5⟩
      else none)) ∧
      (try_expand_at ([105, 102, 32, 40, 97, 41, 32, 123] ++
          List.replicate 80 98 ++ [125, 32, 123, 99, 125]) 0 =
        (if (ifCollapsed ([105, 102, 32, 40, 97, 41, 32, 123] ++
              List.replicate 80 98 ++ [125, 32, 123, 99, 125])
              (IfHeadInfo.mk 3 5 7 88 90 92 false 93)).length ≤
            MAX_LINE_WIDTH then none
        else some ⟨0, 93,
          expandReplacement ([105, 102, 32, 40, 97, 41, 32, 123] ++
              List.replicate 80 98 ++ [125, 32, 123, 99, 125])
            (IfHeadInfo.mk 3 5 7 88 90 92 false 93)
            (expandIndent ([105, 102, 32, 40, 97, 41, 32, 123] ++
              List.replicate 80 98 ++ [125, 32, 123, 99, 125]) 0)⟩)) :=
  ⟨width_decision_three_way_guarded.1 [91, 49, 44, 10, 50, 93] 0 5
      (by decide) (by decide) (by decide) (by decide),
    width_decision_three_way_guarded.2
      ([105, 102, 32, 40, 97, 41, 32, 123] ++ List.replicate 80 98 ++
        [125, 32, 123, 99, 125]) 0 (IfHeadInfo.mk 3 5 7 88 90 92 false 93)
      (by decide) (by decide) (by decide) (by decide) (by decide)⟩

/-- C5 witness: the three parts of the amended theorem applied to "a+b"
(binary plus between identifiers) and to the `!` of "x: !y". -/
theorem binary_op_unary_test_and_spacing_witness :
    (is_unary_plus_minus [97, 43, 98] 1 =
        (prevNonWs [97, 43, 98] 1).all claimUnaryTriggerPM) ∧
      (is_unary_bang [120, 58, 32, 33, 121] 3 =
        (prevNonWs [120, 58, 32, 33, 121] 3).all claimUnaryTriggerBang) ∧
      (apply_edits [97, 43, 98] (fix_around_op [97, 43, 98] 1 1) =
        opNormalized [97, 43, 98] 1 1) :=
  ⟨binary_op_unary_test_and_spacing.1 [97, 43, 98] 1 (by decide),
    binary_op_unary_test_and_spacing.2.1 [120, 58, 32, 33, 121] 3
      (by decide),
    binary_op_unary_test_and_spacing.2.2 [97, 43, 98] 1 1 (by decide)
      (by decide)⟩

end SclangFormat
